import Mathlib

/-!
Verification of the real-time spoken-dialogue pipeline (`clone_pro`).

The definitions below are shallow embeddings of the coordination layer of the
repository:

* `controller.py` — the orchestrator (`run_controller`, `stream_to_tts`,
  `_split_sentences`, the per-transcript turn handling);
* `ears_stt/run_stt_server.py` — the recognition leg (the listening gate,
  `audio_generator`, `broadcast_text`, `websocket_handler`,
  `transcription_worker`);
* `api_server/tts_server.py` — the synthesis leg (`_get_infer_semaphore`
  and the admission-controlled `websocket_handler`).

Pure functions are translated to Lean functions; stateful/concurrent code is
translated to explicit step functions over small state records, driven by
event lists that model the possible interleavings.
-/

namespace ClonePro

/-! ## `controller.py`: sentence splitting

`SENTENCE_SPLIT_REGEX = re.compile(r"(.+?[。？！!?]+)")` and
`_split_sentences` (controller.py lines 65, 84-98).

The regex is modelled exactly: `.` matches any character except a newline,
`.+?` is lazy (stops at the first position where a sentence-terminal run can
start), `[。？！!?]+` is greedy.  `finditer` yields leftmost, non-overlapping
matches.  `_split_sentences` strips each matched group, keeps the non-empty
ones, and returns the part of the buffer after the last match as remainder.
-/

/-- The sentence-terminal characters of `SENTENCE_SPLIT_REGEX` (`。？！!?`). -/
def sentenceTerminal (c : Char) : Bool :=
  c = '。' || c = '？' || c = '！' || c = '!' || c = '?'

/-- Whitespace characters removed by Python's `str.strip()` (the ones
relevant here: ASCII whitespace plus the ideographic space). -/
def pyIsSpace (c : Char) : Bool :=
  c = ' ' || c = '\t' || c = '\n' || c = '\r' || c = '\x0b' || c = '\x0c' || c = '　'

/-- Python `str.strip()` on a character list. -/
def pyStrip (s : List Char) : List Char :=
  ((s.dropWhile pyIsSpace).reverse.dropWhile pyIsSpace).reverse

/-- The tail of a match of `.+?[。？！!?]+` starting one character in:
scan for the first sentence-terminal character (lazy `.+?`), failing on a
newline (`.` does not match `\n`); on success return the characters consumed
by `.+?` after the first one, the greedy terminal run, and the rest. -/
def scanToTerm : List Char → Option (List Char × List Char × List Char)
  | [] => none
  | c :: cs =>
    if sentenceTerminal c then
      some ([], (c :: cs).takeWhile sentenceTerminal, (c :: cs).dropWhile sentenceTerminal)
    else if c = '\n' then none
    else
      match scanToTerm cs with
      | some (pre, run, rest) => some (c :: pre, run, rest)
      | none => none

/-- A match of `(.+?[。？！!?]+)` anchored at the start of `s`: the first
character is consumed by `.+?` (so it may not be a newline), then the lazy
scan.  Returns the matched group and the rest of the string. -/
def matchAt : List Char → Option (List Char × List Char)
  | [] => none
  | c :: cs =>
    if c = '\n' then none
    else
      match scanToTerm cs with
      | some (pre, run, rest) => some (c :: (pre ++ run), rest)
      | none => none

/-- `finditer` step: the leftmost match in `s`, returned together with the
characters skipped before the match and the rest after it. -/
def findNextMatch : List Char → Option (List Char × List Char × List Char)
  | [] => none
  | c :: cs =>
    match matchAt (c :: cs) with
    | some (g, rest) => some ([], g, rest)
    | none =>
      match findNextMatch cs with
      | some (sk, g, rest) => some (c :: sk, g, rest)
      | none => none

/-- All `finditer` matches of `SENTENCE_SPLIT_REGEX` (raw groups, unstripped)
together with the remainder `buffer[remainder_start:]` after the last match.
Fuel-based recursion; `s.length` fuel always suffices. -/
def pyFinditerAux : Nat → List Char → List (List Char) × List Char
  | 0, s => ([], s)
  | fuel + 1, s =>
    match findNextMatch s with
    | none => ([], s)
    | some (_, g, rest) =>
      let p := pyFinditerAux fuel rest
      (g :: p.1, p.2)

/-- The matches and remainder of `SENTENCE_SPLIT_REGEX.finditer(buffer)`. -/
def pyFinditer (s : List Char) : List (List Char) × List Char :=
  pyFinditerAux s.length s

/-- `_split_sentences` (controller.py lines 84-98): strip each matched group,
keep non-empty ones, return them with the remainder after the last match. -/
def split_sentences (buffer : List Char) : List (List Char) × List Char :=
  (((pyFinditer buffer).1.map pyStrip).filter (fun s => !s.isEmpty), (pyFinditer buffer).2)

/-- Reassemble a buffer from skipped parts, matched groups and the final
remainder: used to state that the matches occur in order in the input. -/
def joinParts : List (List Char × List Char) → List Char → List Char
  | [], rem => rem
  | (p, g) :: t, rem => p ++ g ++ joinParts t rem

theorem scanToTerm_decomp (cs pre run rest : List Char)
    (h : scanToTerm cs = some (pre, run, rest)) :
    cs = pre ++ run ++ rest ∧ run ≠ [] ∧ ∀ c ∈ run, sentenceTerminal c = true := by
  induction cs generalizing pre run rest with
  | nil => simp [scanToTerm] at h
  | cons c cs ih =>
    cases hterm : sentenceTerminal c with
    | true =>
      simp only [scanToTerm, hterm, if_true, Option.some.injEq, Prod.mk.injEq] at h
      obtain ⟨h1, h2, h3⟩ := h
      subst h1; subst h2; subst h3
      refine ⟨by simp [List.takeWhile_append_dropWhile], ?_, ?_⟩
      · simp [List.takeWhile, hterm]
      · intro d hd; exact List.mem_takeWhile_imp hd
    | false =>
      cases hnl : decide (c = '\n') with
      | true =>
        have hc : c = '\n' := of_decide_eq_true hnl
        subst hc
        simp [scanToTerm, show sentenceTerminal '\n' = false from rfl] at h
      | false =>
        have hnl' : ¬c = '\n' := of_decide_eq_false hnl
        cases hscan : scanToTerm cs with
        | none => simp [scanToTerm, hterm, hnl', hscan] at h
        | some v =>
          obtain ⟨pre', run', rest'⟩ := v
          simp only [scanToTerm, hterm, hnl', if_false, ite_false, hscan,
            Option.some.injEq, Prod.mk.injEq, Bool.false_eq_true] at h
          obtain ⟨h1, h2, h3⟩ := h
          obtain ⟨hcs, hrun, hall⟩ := ih pre' run' rest' hscan
          subst h2; subst h3
          refine ⟨?_, hrun, hall⟩
          rw [← h1]; simp [hcs]

theorem matchAt_decomp (s g rest : List Char) (h : matchAt s = some (g, rest)) :
    s = g ++ rest ∧ g ≠ [] ∧ ∃ d, g.getLast? = some d ∧ sentenceTerminal d = true := by
  cases s with
  | nil => simp [matchAt] at h
  | cons c cs =>
    by_cases hnl : c = '\n'
    · simp [matchAt, hnl] at h
    · cases hscan : scanToTerm cs with
      | none => simp [matchAt, hnl, hscan] at h
      | some v =>
        obtain ⟨pre, run, rest'⟩ := v
        simp only [matchAt, hnl, if_false, ite_false, hscan, Option.some.injEq,
          Prod.mk.injEq] at h
        obtain ⟨h1, h2⟩ := h
        obtain ⟨hcs, hrun, hall⟩ := scanToTerm_decomp cs pre run rest' hscan
        subst h2
        refine ⟨by rw [← h1]; simp [hcs], by rw [← h1]; simp, ?_⟩
        refine ⟨run.getLast hrun, ?_, ?_⟩
        · rw [← h1]
          have hlast : run.getLast? = some (run.getLast hrun) :=
            List.getLast?_eq_getLast_of_ne_nil hrun
          rw [show (c :: (pre ++ run) : List Char) = (c :: pre) ++ run by simp,
            List.getLast?_append_of_ne_nil _ hrun, hlast]
        · exact hall _ (List.getLast_mem hrun)

theorem findNextMatch_decomp (s sk g rest : List Char)
    (h : findNextMatch s = some (sk, g, rest)) :
    s = sk ++ g ++ rest ∧ g ≠ [] ∧
      ∃ d, g.getLast? = some d ∧ sentenceTerminal d = true := by
  induction s generalizing sk g rest with
  | nil => simp [findNextMatch] at h
  | cons c cs ih =>
    cases hm : matchAt (c :: cs) with
    | some v =>
      obtain ⟨g', rest'⟩ := v
      simp only [findNextMatch, hm, Option.some.injEq, Prod.mk.injEq] at h
      obtain ⟨h1, h2, h3⟩ := h
      subst h1; subst h2; subst h3
      obtain ⟨hd, hne, hlast⟩ := matchAt_decomp _ _ _ hm
      exact ⟨by simpa using hd, hne, hlast⟩
    | none =>
      cases hf : findNextMatch cs with
      | none => simp [findNextMatch, hm, hf] at h
      | some v =>
        obtain ⟨sk', g', rest'⟩ := v
        simp only [findNextMatch, hm, hf, Option.some.injEq, Prod.mk.injEq] at h
        obtain ⟨h1, h2, h3⟩ := h
        obtain ⟨hd, hne, hlast⟩ := ih sk' g' rest' hf
        subst h2; subst h3
        refine ⟨?_, hne, hlast⟩
        rw [← h1]; simp [hd]

theorem findNextMatch_rest_lt (s sk g rest : List Char)
    (h : findNextMatch s = some (sk, g, rest)) : rest.length < s.length := by
  obtain ⟨hd, hne, -⟩ := findNextMatch_decomp s sk g rest h
  subst hd
  have : 1 ≤ g.length := List.length_pos.mpr hne
  simp only [List.length_append]
  omega

/-- Every `finditer` raw group is non-empty and ends with a sentence-terminal
character, the input decomposes in order into skipped text, groups and the
remainder, and with no match the remainder is the whole input. -/
theorem pyFinditerAux_spec (fuel : Nat) (s : List Char) (hfuel : s.length ≤ fuel) :
    (∀ g ∈ (pyFinditerAux fuel s).1,
        g ≠ [] ∧ ∃ d, g.getLast? = some d ∧ sentenceTerminal d = true) ∧
      (∃ ps : List (List Char), ps.length = (pyFinditerAux fuel s).1.length ∧
        s = joinParts (ps.zip (pyFinditerAux fuel s).1) (pyFinditerAux fuel s).2) ∧
      ((pyFinditerAux fuel s).1 = [] → (pyFinditerAux fuel s).2 = s) := by
  induction fuel generalizing s with
  | zero =>
    have hs : s = [] := List.length_eq_zero.mp (Nat.le_zero.mp hfuel)
    subst hs
    refine ⟨by simp [pyFinditerAux], ⟨[], by simp [pyFinditerAux], ?_⟩,
      by simp [pyFinditerAux]⟩
    simp [pyFinditerAux, joinParts]
  | succ fuel ih =>
    cases hf : findNextMatch s with
    | none =>
      refine ⟨by simp [pyFinditerAux, hf], ⟨[], by simp [pyFinditerAux, hf], ?_⟩,
        by simp [pyFinditerAux, hf]⟩
      simp [pyFinditerAux, hf, joinParts]
    | some v =>
      obtain ⟨sk, g, rest⟩ := v
      obtain ⟨hd, hne, hlast⟩ := findNextMatch_decomp s sk g rest hf
      have hlt : rest.length < s.length := findNextMatch_rest_lt s sk g rest hf
      have hrest : rest.length ≤ fuel := by omega
      obtain ⟨ihg, ⟨ps, hps, hjoin⟩, ihrem⟩ := ih rest hrest
      rcases haux : pyFinditerAux fuel rest with ⟨gs, rem⟩
      rw [haux] at ihg ihrem hps hjoin
      have hstep : pyFinditerAux (fuel + 1) s = (g :: gs, rem) := by
        simp [pyFinditerAux, hf, haux]
      rw [hstep]
      refine ⟨?_, ⟨sk :: ps, ?_, ?_⟩, ?_⟩
      · intro g' hg'
        simp only [List.mem_cons] at hg'
        rcases hg' with rfl | hg'
        · exact ⟨hne, hlast⟩
        · exact ihg g' hg'
      · simp [hps]
      · simp only [List.zip_cons_cons, joinParts]
        rw [hd, hjoin]
        rfl
      · simp

theorem pyFinditer_spec (s : List Char) :
    (∀ g ∈ (pyFinditer s).1,
        g ≠ [] ∧ ∃ d, g.getLast? = some d ∧ sentenceTerminal d = true) ∧
      (∃ ps : List (List Char), ps.length = (pyFinditer s).1.length ∧
        s = joinParts (ps.zip (pyFinditer s).1) (pyFinditer s).2) ∧
      ((pyFinditer s).1 = [] → (pyFinditer s).2 = s) :=
  pyFinditerAux_spec s.length s le_rfl

theorem sentenceTerminal_not_space (c : Char) (h : sentenceTerminal c = true) :
    pyIsSpace c = false := by
  simp only [sentenceTerminal, Bool.or_eq_true, decide_eq_true_eq] at h
  rcases h with ((((rfl | rfl) | rfl) | rfl) | rfl) <;> decide

theorem pyStrip_getLast? (l : List Char) (c : Char) (hlast : l.getLast? = some c)
    (hc : pyIsSpace c = false) :
    pyStrip l ≠ [] ∧ (pyStrip l).getLast? = some c := by
  have hmem : c ∈ l := by
    have hc : c ∈ l.getLast? := hlast
    obtain ⟨h, rfl⟩ := List.mem_getLast?_eq_getLast hc
    exact List.getLast_mem h
  set l1 := l.dropWhile pyIsSpace with hl1
  have hl1ne : l1 ≠ [] := by
    intro hnil
    have := List.dropWhile_eq_nil_iff.mp (hl1 ▸ hnil) c hmem
    rw [hc] at this; exact absurd this (by simp)
  have hl1last : l1.getLast? = some c := by
    have hsuffix : l.dropWhile pyIsSpace <:+ l := List.dropWhile_suffix pyIsSpace
    obtain ⟨t, ht⟩ := hsuffix
    rw [← hlast, ← ht, List.getLast?_append_of_ne_nil _ hl1ne]
  have hhead : l1.reverse.head? = some c := by rw [List.head?_reverse]; exact hl1last
  obtain ⟨c', t2, ht2⟩ := List.exists_cons_of_ne_nil (by simpa using hl1ne : l1.reverse ≠ [])
  rw [ht2] at hhead
  simp only [List.head?_cons, Option.some.injEq] at hhead
  subst hhead
  have hdrop : l1.reverse.dropWhile pyIsSpace = l1.reverse := by
    rw [ht2, List.dropWhile_cons_of_neg (by simp [hc])]
  have hstrip : pyStrip l = l1 := by
    rw [pyStrip, ← hl1, hdrop, List.reverse_reverse]
  rw [hstrip]
  exact ⟨hl1ne, hl1last⟩

/-- C10. For every input string, `_split_sentences` returns sentences that are
non-empty and end with a sentence-terminal character from `。？！!?`; the
remainder is exactly the suffix of the input following the last extracted
unit (the whole input when no unit is matched); and the sentences are the
stripped matched units in input order. -/
theorem C10_split_sentences_spec (buffer : List Char) :
    (∀ s ∈ (split_sentences buffer).1,
        s ≠ [] ∧ ∃ d, s.getLast? = some d ∧ sentenceTerminal d = true) ∧
      (∃ ps : List (List Char), ps.length = (pyFinditer buffer).1.length ∧
        buffer = joinParts (ps.zip (pyFinditer buffer).1) (split_sentences buffer).2) ∧
      ((pyFinditer buffer).1 = [] → (split_sentences buffer).2 = buffer) ∧
      (split_sentences buffer).1 = (pyFinditer buffer).1.map pyStrip := by
  obtain ⟨hg, hjoin, hrem⟩ := pyFinditer_spec buffer
  have hstripped : ∀ g ∈ (pyFinditer buffer).1,
      pyStrip g ≠ [] ∧ ∃ d, (pyStrip g).getLast? = some d ∧ sentenceTerminal d = true := by
    intro g hgmem
    obtain ⟨-, d, hd, hdterm⟩ := hg g hgmem
    obtain ⟨hne, hlast⟩ := pyStrip_getLast? g d hd (sentenceTerminal_not_space d hdterm)
    exact ⟨hne, d, hlast, hdterm⟩
  have hfilter : (((pyFinditer buffer).1.map pyStrip).filter (fun s => !s.isEmpty)) =
      (pyFinditer buffer).1.map pyStrip := by
    apply List.filter_eq_self.mpr
    intro s hs
    obtain ⟨g, hgmem, rfl⟩ := List.mem_map.mp hs
    simp [List.isEmpty_iff, (hstripped g hgmem).1]
  refine ⟨?_, ?_, ?_, ?_⟩
  · intro s hs
    rw [split_sentences] at hs
    simp only [hfilter] at hs
    obtain ⟨g, hgmem, rfl⟩ := List.mem_map.mp hs
    exact hstripped g hgmem
  · exact hjoin
  · intro h; rw [split_sentences]; exact hrem h
  · rw [split_sentences]; simpa using hfilter

/-! ## `ears_stt/run_stt_server.py`: `broadcast_text` (lines 93-110)

The function iterates over a snapshot of `connected_clients`, attempts
`ws.send(text)` on every client (a per-client `try`/`except` collects failed
clients in `disconnected` without aborting the loop), and only after the loop
removes the failed clients from the registry.  A listener is modelled by an
id plus whether its `send` succeeds. -/

structure Listener where
  id : Nat
  sendOk : Bool
deriving DecidableEq

/-- The send loop of `broadcast_text`: returns the ids that received the
message and the list of clients whose send failed (`disconnected`). -/
def broadcastSendLoop : List Listener → List Nat × List Listener
  | [] => ([], [])
  | ws :: rest =>
    let r := broadcastSendLoop rest
    if ws.sendOk then (ws.id :: r.1, r.2) else (r.1, ws :: r.2)

/-- `broadcast_text`: run the send loop over all clients, then remove the
failed clients from the registry (removal happens after the whole loop). -/
def broadcast_text (clients : List Listener) : List Nat × List Listener :=
  let att := broadcastSendLoop clients
  (att.1, clients.filter (fun ws => decide (ws ∉ att.2)))

theorem broadcastSendLoop_delivered (clients : List Listener) :
    (broadcastSendLoop clients).1 =
      (clients.filter (fun ws => ws.sendOk)).map (fun ws => ws.id) := by
  induction clients with
  | nil => rfl
  | cons ws rest ih =>
    cases h : ws.sendOk <;> simp [broadcastSendLoop, List.filter_cons, h, ih]

theorem broadcastSendLoop_disconnected (clients : List Listener) :
    (broadcastSendLoop clients).2 = clients.filter (fun ws => !ws.sendOk) := by
  induction clients with
  | nil => rfl
  | cons ws rest ih =>
    cases h : ws.sendOk <;> simp [broadcastSendLoop, List.filter_cons, h, ih]

/-- C5. Broadcasting to N listeners where some sends fail still delivers to
every listener whose send succeeds (the loop is not aborted by a failure),
and the failed listeners are removed from the registry only after the
delivery attempt to all listeners completes: the delivered list is exactly
the ids of all healthy listeners of the full original registry, in order,
and the registry afterwards keeps exactly the healthy listeners. -/
theorem C5_broadcast_tolerates_failures (clients : List Listener) :
    (broadcast_text clients).1 =
        (clients.filter (fun ws => ws.sendOk)).map (fun ws => ws.id) ∧
      (broadcast_text clients).2 = clients.filter (fun ws => ws.sendOk) := by
  constructor
  · exact broadcastSendLoop_delivered clients
  · show clients.filter _ = clients.filter _
    apply List.filter_congr
    intro ws hws
    rw [broadcastSendLoop_disconnected]
    cases h : ws.sendOk with
    | true =>
      simp only [decide_eq_true_eq]
      intro hmem
      have := List.of_mem_filter hmem
      rw [h] at this
      simp at this
    | false =>
      simp only [decide_eq_false_iff_not, Decidable.not_not]
      exact List.mem_filter.mpr ⟨hws, by simp [h]⟩

/-! ## `controller.py`: `stream_to_tts` (lines 371-389) and the two
turn-taking modes of the spec.

`stream_to_tts` collects every chunk of the generation stream into
`full_text` (skipping falsy chunks), and after the stream is exhausted makes
a single synthesis submission of the stripped text (none if it strips to
empty).  The spec's incremental mode — submit each complete
sentence-terminal unit as soon as it is available, then the trailing
partial buffer — is written below `incremental_mode_submissions` directly
from the spec's words, for comparison. -/

/-- Python `str.strip()` on a `String`. -/
def pyStripS (s : String) : String := String.mk (pyStrip s.toList)

/-- The accumulation loop of `stream_to_tts`:
`if not text_chunk: continue; full_text += text_chunk`. -/
def collectFullText (chunks : List String) : String :=
  chunks.foldl (fun acc c => if c = "" then acc else acc ++ c) ""

/-- `stream_to_tts`: the synthesis submissions made for one generation
stream — a single submission of the whole stripped text, after the whole
stream has been collected. -/
def stream_to_tts (chunks : List String) : List String :=
  let full := collectFullText chunks
  if pyStripS full = "" then [] else [pyStripS full]

/-- Modelled from the spec (§4.5 incremental mode), for comparison with the
code: accumulate arriving text into a buffer; whenever the buffer contains
complete sentence-terminal units, extract and submit each immediately;
submit the stripped trailing partial buffer once generation finishes. -/
def incremental_mode_submissions : String → List String → List String
  | buf, [] => if pyStripS buf = "" then [] else [pyStripS buf]
  | buf, c :: t =>
    let r := split_sentences (buf ++ c).toList
    (r.1.map fun l => String.mk l) ++ incremental_mode_submissions (String.mk r.2) t

/-- Modelled from the spec (§4.5 batch mode): submit the whole stripped
response text as one unit once generation is complete. -/
def batch_mode_submissions (chunks : List String) : List String :=
  let full := pyStripS (chunks.foldl (fun acc c => acc ++ c) "")
  if full = "" then [] else [full]

/-- C7 counterexample. On a generation stream that delivers two complete
sentence-terminal units as separate chunks, `stream_to_tts` makes one single
submission of the concatenated text instead of submitting each unit as it
becomes available: the synthesis path implements no incremental mode. -/
theorem C7_counterexample :
    stream_to_tts ["こんにちは。", "元気？"] = ["こんにちは。元気？"] ∧
      incremental_mode_submissions "" ["こんにちは。", "元気？"] = ["こんにちは。", "元気？"] ∧
      stream_to_tts ["こんにちは。", "元気？"] ≠
        incremental_mode_submissions "" ["こんにちは。", "元気？"] := by
  refine ⟨by rfl, by rfl, ?_⟩
  intro h
  rw [show stream_to_tts ["こんにちは。", "元気？"] = ["こんにちは。元気？"] from rfl,
    show incremental_mode_submissions "" ["こんにちは。", "元気？"] =
      ["こんにちは。", "元気？"] from rfl] at h
  simp at h

theorem collectFullText_eq_foldl (chunks : List String) (acc : String) :
    chunks.foldl (fun a c => if c = "" then a else a ++ c) acc =
      chunks.foldl (fun a c => a ++ c) acc := by
  induction chunks generalizing acc with
  | nil => rfl
  | cons c t ih =>
    by_cases h : c = ""
    · subst h; simp [ih]
    · simp [h, ih]

/-- C7 amended. The synthesis path supports only the batch mode of the
spec: all incrementally arriving text is accumulated and, once generation
finishes, the full stripped text is submitted as one single synthesis call;
no sentence unit is submitted early. -/
theorem C7_amended_batch_only (chunks : List String) :
    stream_to_tts chunks = batch_mode_submissions chunks := by
  rw [stream_to_tts, batch_mode_submissions, collectFullText,
    collectFullText_eq_foldl]

/-! ## `controller.py`: per-transcript turn handling (lines 499-519)

On each recognized transcript the orchestrator sends `PAUSE_LISTENING`
(its own `try`/`except`: a send failure is logged, the turn proceeds), calls
`handle_llm_response` inside `try`/`except` (any exception is logged as a
turn error), and in the `finally` block sends `RESUME_LISTENING` (again with
its own `try`/`except`).  The surrounding `async for` loop then continues
with the next message. -/

inductive GateCmd
  | pauseListening
  | resumeListening
deriving DecidableEq

structure TurnResult where
  /-- gate commands whose send was attempted, in order -/
  attempted : List GateCmd
  /-- gate commands whose send succeeded -/
  sent : List GateCmd
  errorLogged : Bool
  /-- whether the message loop continues with the next transcript -/
  continues : Bool
deriving DecidableEq

/-- One `websocket.send(cmd)` wrapped in `try`/`except`: a failure is logged
and execution proceeds. -/
def attemptSend (r : TurnResult) (c : GateCmd) (ok : Bool) : TurnResult :=
  if ok then { r with attempted := r.attempted ++ [c], sent := r.sent ++ [c] }
  else { r with attempted := r.attempted ++ [c], errorLogged := true }

/-- The body of the transcript loop for one turn: pause, generation and
synthesis (`handle_llm_response`, which may raise), then — in a
`finally`-equivalent — resume.  All exceptions are caught, so the loop
always continues. -/
def run_turn (llmResult : Except String Unit) (pauseOk resumeOk : Bool) : TurnResult :=
  let r0 : TurnResult := ⟨[], [], false, true⟩
  let r1 := attemptSend r0 .pauseListening pauseOk
  let r2 := match llmResult with
    | .ok _ => r1
    | .error _ => { r1 with errorLogged := true }
  attemptSend r2 .resumeListening resumeOk

/-- C4. Whatever the outcome of generation/synthesis (including an
exception), the orchestrator still attempts `RESUME_LISTENING` afterwards —
the resume send is attempted on every path, it is actually sent whenever
the channel accepts it, and the transcript loop continues with the next
turn instead of staying paused. -/
theorem C4_resume_after_failure (llmResult : Except String Unit)
    (pauseOk resumeOk : Bool) :
    (run_turn llmResult pauseOk resumeOk).attempted =
        [.pauseListening, .resumeListening] ∧
      (run_turn llmResult pauseOk resumeOk).sent =
        ((if pauseOk then [GateCmd.pauseListening] else []) ++
          (if resumeOk then [GateCmd.resumeListening] else [])) ∧
      (run_turn llmResult pauseOk resumeOk).continues = true := by
  cases llmResult <;> cases pauseOk <;> cases resumeOk <;>
    simp [run_turn, attemptSend]

/-! ## `controller.py`: `run_controller` connect/retry loop (lines 460-551)

The loop keeps a `retry_count` against `max_retries = 3`.  Each iteration
connects and runs a session; the session ends in one of four ways:
the server closes the connection normally (`break`, no retry),
`ConnectionClosedError` (increment, sleep 3 s if budget remains, retry),
`ConnectionRefusedError` (diagnostic and immediate `break` — no retry),
or any other exception (increment, sleep 3 s if budget remains, retry).
The environment is modelled as a function from the attempt index to the
session outcome. -/

inductive AttemptOutcome
  | normalEnd
  | closedErr
  | refusedErr
  | otherErr
deriving DecidableEq

inductive StopReason
  | normalStop
  | refusedStop
  | exhaustedStop
deriving DecidableEq

structure ControllerRun where
  /-- number of connection attempts made -/
  attempts : Nat
  /-- backoff sleeps performed, in seconds -/
  sleeps : List Nat
  stop : StopReason
deriving DecidableEq

def MAX_RETRIES : Nat := 3

def RETRY_BACKOFF_SECONDS : Nat := 3

/-- The retry loop with `fuel = max_retries - retry_count` (the loop runs
while `retry_count < max_retries`); `n` is the number of attempts made so
far. -/
def run_controller_loop (outcomes : Nat → AttemptOutcome) :
    Nat → Nat → List Nat → ControllerRun
  | 0, n, sleeps => ⟨n, sleeps, .exhaustedStop⟩
  | fuel + 1, n, sleeps =>
    match outcomes n with
    | .normalEnd => ⟨n + 1, sleeps, .normalStop⟩
    | .refusedErr => ⟨n + 1, sleeps, .refusedStop⟩
    | .closedErr =>
      if fuel = 0 then ⟨n + 1, sleeps, .exhaustedStop⟩
      else run_controller_loop outcomes fuel (n + 1) (sleeps ++ [RETRY_BACKOFF_SECONDS])
    | .otherErr =>
      if fuel = 0 then ⟨n + 1, sleeps, .exhaustedStop⟩
      else run_controller_loop outcomes fuel (n + 1) (sleeps ++ [RETRY_BACKOFF_SECONDS])

def run_controller (outcomes : Nat → AttemptOutcome) : ControllerRun :=
  run_controller_loop outcomes MAX_RETRIES 0 []

/-- Any session end that is a failure (as opposed to a normal close). -/
def isFailureOutcome : AttemptOutcome → Bool
  | .normalEnd => false
  | _ => true

/-- The failures the loop actually retries. -/
def isTransientOutcome : AttemptOutcome → Bool
  | .closedErr => true
  | .otherErr => true
  | _ => false

/-- The claim as stated: after every connect failure or disconnect the
orchestrator increments the retry counter, sleeps and retries (when the
budget is not yet exhausted), so a failing first attempt is always followed
by a second one. -/
def everyConnectFailureRetried : Prop :=
  ∀ outcomes : Nat → AttemptOutcome,
    isFailureOutcome (outcomes 0) = true → 2 ≤ (run_controller outcomes).attempts

/-- An environment whose first connect attempt is refused and that would
succeed afterwards. -/
def refusedFirstOutcomes : Nat → AttemptOutcome :=
  fun n => if n = 0 then .refusedErr else .normalEnd

/-- C3 counterexample. A `ConnectionRefusedError` on the first connect is a
connect failure, but `run_controller` stops immediately without retrying or
sleeping: the claim "every connect failure ... retries up to the maximum"
is false on the code. -/
theorem C3_counterexample :
    run_controller refusedFirstOutcomes = ⟨1, [], .refusedStop⟩ ∧
      ¬everyConnectFailureRetried := by
  refine ⟨by rfl, ?_⟩
  intro h
  have h2 := h refusedFirstOutcomes (by rfl)
  rw [show run_controller refusedFirstOutcomes = ⟨1, [], .refusedStop⟩ from rfl] at h2
  simp at h2

/-- C3 amended. Connection-closed and unexpected errors are retried with a
3-second backoff up to 3 total attempts, after which the orchestrator stops;
a session closing normally stops the loop; a `ConnectionRefusedError` stops
immediately without any retry; and a channel that recovers on attempt 2 of 3
(first attempt fails transiently, second succeeds) completes normally with
exactly one backoff sleep and no manual intervention. -/
theorem C3_amended_retry_policy (outcomes : Nat → AttemptOutcome) :
    (run_controller outcomes).attempts ≤ 3 ∧
      (∀ s ∈ (run_controller outcomes).sleeps, s = RETRY_BACKOFF_SECONDS) ∧
      ((run_controller outcomes).stop = .exhaustedStop →
        (run_controller outcomes).attempts = 3 ∧
          (run_controller outcomes).sleeps = [3, 3]) ∧
      (outcomes 0 = .refusedErr → run_controller outcomes = ⟨1, [], .refusedStop⟩) ∧
      (isTransientOutcome (outcomes 0) = true → outcomes 1 = .normalEnd →
        run_controller outcomes = ⟨2, [3], .normalStop⟩) := by
  rcases h0 : outcomes 0 <;> rcases h1 : outcomes 1 <;> rcases h2 : outcomes 2 <;>
    simp_all [run_controller, run_controller_loop, MAX_RETRIES,
      RETRY_BACKOFF_SECONDS, isTransientOutcome]

/-- Witness for the amended C3 theorem at a concrete environment: a channel
that fails once with a closed connection and then recovers resumes normal
operation after one 3-second backoff. -/
theorem C3_amended_retry_policy_witness :
    run_controller (fun n => if n = 0 then .closedErr else .normalEnd) =
      ⟨2, [3], .normalStop⟩ :=
  (C3_amended_retry_policy (fun n => if n = 0 then .closedErr else .normalEnd)).2.2.2.2
    (by rfl) (by rfl)

/-! ## `ears_stt/run_stt_server.py`: the STT server as a transition system

State and transitions translated from the source:
`listening_event` (initially set, i.e. LISTENING), `connected_clients`,
`websocket_handler` (lines 48-90: registration, the connect handshake
`ACK`/`STATE: LISTENING`, and the PAUSE/RESUME command handling — the
`STATE:` reply goes to the commanding websocket only), `audio_generator`
(lines 240-267: while the event is cleared the loop sleeps and reads
nothing; otherwise a chunk is read and yielded to the recognizer), and
`transcription_worker` (lines 316-353: every final transcript from the
recognizer is passed to `broadcast_text` with no gate check).

Events model the interleaved activity: a client connecting, a client
command, one iteration of the capture loop, and the recognizer finalizing a
transcript (possible only if some audio was submitted). -/

inductive ServerCommand
  | pauseListening
  | resumeListening
  | unknownCommand
deriving DecidableEq

inductive ServerEvent
  | connect (c : Nat)
  | command (issuer : Nat) (cmd : ServerCommand)
  | readFrame
  | finalResult (t : String)
deriving DecidableEq

structure ServerState where
  /-- `listening_event.is_set()` -/
  gate : Bool
  /-- `connected_clients` -/
  clients : List Nat
  /-- audio chunks yielded by `audio_generator` to the recognizer -/
  submitted : Nat
  /-- every `ws.send` performed: (client, text) -/
  sends : List (Nat × String)
  /-- transcript broadcasts, each with the gate state at broadcast time -/
  transcriptBroadcasts : List (String × Bool)
deriving DecidableEq

/-- Initial state: `listening_event.set()` at module load, no clients. -/
def serverInit : ServerState := ⟨true, [], 0, [], []⟩

def serverStep (st : ServerState) : ServerEvent → ServerState
  | .connect c =>
    { st with
        clients := st.clients ++ [c]
        sends := st.sends ++
          [(c, "ACK: Connected to STT Server"), (c, "STATE: LISTENING")] }
  | .command issuer cmd =>
    if st.clients.contains issuer then
      match cmd with
      | .pauseListening =>
        if st.gate then
          { st with gate := false, sends := st.sends ++ [(issuer, "STATE: PAUSED")] }
        else st
      | .resumeListening =>
        if st.gate then st
        else { st with gate := true, sends := st.sends ++ [(issuer, "STATE: LISTENING")] }
      | .unknownCommand => st
    else st
  | .readFrame =>
    if st.gate then { st with submitted := st.submitted + 1 } else st
  | .finalResult t =>
    if 0 < st.submitted then
      { st with
          sends := st.sends ++ st.clients.map (fun c => (c, t))
          transcriptBroadcasts := st.transcriptBroadcasts ++ [(t, st.gate)] }
    else st

def serverRun : ServerState → List ServerEvent → ServerState
  | st, [] => st
  | st, e :: evs => serverRun (serverStep st e) evs

/-- The C1 claim as stated: in every execution, every transcript broadcast
happens while the gate is LISTENING (none while PAUSED). -/
def noBroadcastWhilePaused : Prop :=
  ∀ evs : List ServerEvent,
    ∀ p ∈ (serverRun serverInit evs).transcriptBroadcasts, p.2 = true

/-- A trace in which audio is captured while LISTENING, the controller then
pauses the gate, and the recognizer finalizes the pending audio afterwards. -/
def pausedBroadcastTrace : List ServerEvent :=
  [.connect 1, .readFrame, .command 1 .pauseListening, .finalResult "hello"]

/-- C1 counterexample. The broadcast path does not consult the gate: a
recognition result that completes while the gate is PAUSED (for audio
submitted before the pause) is still broadcast, so the claim is false on
the code. -/
theorem C1_counterexample :
    (serverRun serverInit pausedBroadcastTrace).transcriptBroadcasts =
        [("hello", false)] ∧
      ¬noBroadcastWhilePaused := by
  refine ⟨by rfl, ?_⟩
  intro h
  have h2 := h pausedBroadcastTrace ("hello", false)
    (by rw [show (serverRun serverInit pausedBroadcastTrace).transcriptBroadcasts =
      [("hello", false)] from rfl]; simp)
  simp at h2

/-- C1 amended. The gate is consulted on the frame-ingestion path, not on
the broadcast path: while the gate is PAUSED and no resume command arrives,
no audio frame is read and submitted to the recognizer (the capture loop
only sleeps), although a transcript for audio submitted before the pause
may still be broadcast during the pause. -/
theorem C1_amended_no_ingest_while_paused (st : ServerState)
    (evs : List ServerEvent) (hgate : st.gate = false)
    (hnores : ∀ issuer, ServerEvent.command issuer .resumeListening ∉ evs) :
    (serverRun st evs).submitted = st.submitted := by
  induction evs generalizing st with
  | nil => rfl
  | cons e evs ih =>
    have hnores' : ∀ issuer, ServerEvent.command issuer .resumeListening ∉ evs := by
      intro issuer hmem
      exact hnores issuer (List.mem_cons_of_mem _ hmem)
    have hgate' : (serverStep st e).gate = false ∧
        (serverStep st e).submitted = st.submitted := by
      cases e with
      | connect c => exact ⟨hgate, rfl⟩
      | command issuer cmd =>
        cases cmd with
        | pauseListening =>
          by_cases hreg : st.clients.contains issuer <;>
            simp [serverStep, hreg, hgate]
        | resumeListening =>
          exact absurd (List.mem_cons_self _ _) (hnores issuer)
        | unknownCommand =>
          by_cases hreg : st.clients.contains issuer <;>
            simp [serverStep, hreg, hgate]
      | readFrame => simp [serverStep, hgate]
      | finalResult t =>
        by_cases hsub : 0 < st.submitted <;> simp [serverStep, hsub, hgate]
    rw [serverRun, ih (serverStep st e) hgate'.1 hnores', hgate'.2]

/-- Witness for the amended C1 theorem: after a pause, a capture-loop tick
and a pending recognition result leave the submitted-audio count unchanged. -/
theorem C1_amended_no_ingest_while_paused_witness :
    (serverRun (serverRun serverInit [.connect 1, .command 1 .pauseListening])
        [.readFrame, .finalResult "x"]).submitted =
      (serverRun serverInit [.connect 1, .command 1 .pauseListening]).submitted :=
  C1_amended_no_ingest_while_paused
    (serverRun serverInit [.connect 1, .command 1 .pauseListening])
    [.readFrame, .finalResult "x"] (by rfl) (by intro issuer; simp)

/-- The C8 claim as stated: whenever the gate has been switched to PAUSED,
every currently registered listener has been sent the `STATE: PAUSED`
notification. -/
def stateChangeNotifiesAllListeners : Prop :=
  ∀ evs : List ServerEvent, (serverRun serverInit evs).gate = false →
    ∀ c ∈ (serverRun serverInit evs).clients,
      (c, "STATE: PAUSED") ∈ (serverRun serverInit evs).sends

/-- Two registered listeners; listener 1 issues the pause command. -/
def twoClientPauseTrace : List ServerEvent :=
  [.connect 1, .connect 2, .command 1 .pauseListening]

/-- C8 counterexample. The `STATE: PAUSED` notification produced by a gate
change is sent only to the websocket that issued the command: listener 2 is
registered but never receives it, so the claim is false on the code. -/
theorem C8_counterexample :
    (serverRun serverInit twoClientPauseTrace).sends =
        [(1, "ACK: Connected to STT Server"), (1, "STATE: LISTENING"),
          (2, "ACK: Connected to STT Server"), (2, "STATE: LISTENING"),
          (1, "STATE: PAUSED")] ∧
      ¬stateChangeNotifiesAllListeners := by
  refine ⟨by rfl, ?_⟩
  intro h
  have h2 := h twoClientPauseTrace (by rfl) 2
    (by rw [show (serverRun serverInit twoClientPauseTrace).clients = [1, 2] from rfl]
        simp)
  rw [show (serverRun serverInit twoClientPauseTrace).sends =
    [(1, "ACK: Connected to STT Server"), (1, "STATE: LISTENING"),
      (2, "ACK: Connected to STT Server"), (2, "STATE: LISTENING"),
      (1, "STATE: PAUSED")] from rfl] at h2
  simp at h2

/-- C8 amended. A gate command generates at most one notification send, and
it goes only to the client that issued the command; the other registered
listeners receive nothing from the state change (each client is sent
`STATE: LISTENING` only once, on its own connect handshake). -/
theorem C8_amended_notify_issuer_only (st : ServerState) (issuer : Nat)
    (cmd : ServerCommand) :
    (serverStep st (.command issuer cmd)).sends = st.sends ∨
      ∃ m, (serverStep st (.command issuer cmd)).sends = st.sends ++ [(issuer, m)] := by
  by_cases hreg : issuer ∈ st.clients
  · cases cmd with
    | pauseListening =>
      cases hg : st.gate
      · left; simp [serverStep, hreg, hg]
      · right; exact ⟨"STATE: PAUSED", by simp [serverStep, hreg, hg]⟩
    | resumeListening =>
      cases hg : st.gate
      · right; exact ⟨"STATE: LISTENING", by simp [serverStep, hreg, hg]⟩
      · left; simp [serverStep, hreg, hg]
    | unknownCommand => left; simp [serverStep, hreg]
  · left; simp [serverStep, hreg]

/-! ## `ears_stt/run_stt_server.py`: `audio_generator` read errors
(lines 240-267) and the worker session loop (lines 316-353)

One session's generator loop: while the gate is cleared it sleeps
(`pausedTick`); otherwise it reads a chunk; a read that raises is logged and
the loop `break`s, ending the generator (and hence the streaming-recognition
session).  The worker's outer `while` then catches the session error and
starts a new session. -/

inductive ReadResult
  | okChunk (c : Nat)
  | readError
deriving DecidableEq

inductive GenEvent
  | pausedTick
  | read (r : ReadResult)
deriving DecidableEq

/-- The chunks yielded by one run of `audio_generator`: a read error prints
a warning and `break`s out of the loop. -/
def audio_generator : List GenEvent → List Nat
  | [] => []
  | .pausedTick :: t => audio_generator t
  | .read (.okChunk c) :: t => c :: audio_generator t
  | .read .readError :: _ => []

/-- The C9 claim as stated (modelled from the spec's words): a read error is
treated as a dropped frame and processing continues within the same
session. -/
def dropped_frame_spec : List GenEvent → List Nat
  | [] => []
  | .pausedTick :: t => dropped_frame_spec t
  | .read (.okChunk c) :: t => c :: dropped_frame_spec t
  | .read .readError :: t => dropped_frame_spec t

/-- The worker session loop: each session runs `audio_generator` once; after
a session ends (error or exhaustion) the worker starts the next session. -/
def transcription_worker : List (List GenEvent) → List Nat
  | [] => []
  | s :: rest => audio_generator s ++ transcription_worker rest

/-- A session reading one good chunk, hitting a read error, then reading
another good chunk. -/
def errorMidSessionTrace : List GenEvent :=
  [.read (.okChunk 1), .read .readError, .read (.okChunk 2)]

/-- C9 counterexample. A read error does not merely drop the failed frame:
`audio_generator` breaks out of its loop, so the chunk read after the error
is never yielded in that session — the code differs from the
"drop and continue in the same session" behaviour of the claim. -/
theorem C9_counterexample :
    audio_generator errorMidSessionTrace = [1] ∧
      dropped_frame_spec errorMidSessionTrace = [1, 2] ∧
      ¬(∀ evs, audio_generator evs = dropped_frame_spec evs) := by
  refine ⟨by rfl, by rfl, ?_⟩
  intro h
  have h2 := h errorMidSessionTrace
  rw [show audio_generator errorMidSessionTrace = [1] from rfl,
    show dropped_frame_spec errorMidSessionTrace = [1, 2] from rfl] at h2
  simp at h2

/-- C9 amended. A transient read error is logged and ends the current
session's audio generator — nothing read after the error is yielded in that
session — and recovery happens one level up: the worker loop catches the
session failure and starts a new streaming session, in which reads are
processed normally again. -/
theorem C9_amended_error_ends_session (pre rest : List GenEvent)
    (sessions : List (List GenEvent)) :
    audio_generator (pre ++ .read .readError :: rest) =
        audio_generator (pre ++ [.read .readError]) ∧
      transcription_worker sessions = (sessions.map audio_generator).flatten := by
  constructor
  · induction pre with
    | nil => rfl
    | cons e pre ih =>
      cases e with
      | pausedTick => simpa [audio_generator] using ih
      | read r =>
        cases r with
        | okChunk c => simpa [audio_generator] using ih
        | readError => rfl
  · induction sessions with
    | nil => rfl
    | cons s rest ih => simp [transcription_worker, ih]

/-! ## `api_server/tts_server.py`: the synthesis admission semaphore

`_get_infer_semaphore` (lines 42-47) creates one process-wide
`asyncio.Semaphore(max(1, int(os.getenv("TTS_MAX_CONCURRENCY", "1"))))`.
In `websocket_handler` (lines 96-156) every synthesis request enters
`async with sem:` before the inference call and leaves it when the call
returns — also when it raises, since `async with` releases on the
exception path before the outer `except` replies with an error message.

Each request (task) is modelled as a four-phase lifecycle:
`waiting` (blocked on the semaphore) → `holding` (permit acquired, about to
submit) → `inCall` (inside the external inference call) → `finished`
(call returned, permit released; the Boolean records success or failure).
A scheduler event advances one chosen task by one phase; acquiring requires
an available permit, releasing returns it in the same step in which the
call returns, whatever its outcome. -/

inductive InferPhase
  | waiting
  | holding
  | inCall
  | finished (success : Bool)
deriving DecidableEq

structure TtsServerState where
  /-- free permits of the semaphore -/
  avail : Nat
  /-- the lifecycle phase of each request -/
  tasks : List InferPhase
deriving DecidableEq

/-- `max(1, int(os.getenv("TTS_MAX_CONCURRENCY", "1")))`. -/
def tts_max_concurrency (env : Option Nat) : Nat := max 1 (env.getD 1)

def ttsInit (cap ntasks : Nat) : TtsServerState :=
  ⟨cap, List.replicate ntasks .waiting⟩

inductive TtsEvent
  /-- the scheduler advances task `tid`; `outcome` is the result of the
  inference call when this step is the call returning, ignored otherwise -/
  | advance (tid : Nat) (outcome : Bool)
deriving DecidableEq

def ttsStep (st : TtsServerState) : TtsEvent → TtsServerState
  | .advance tid outcome =>
    match st.tasks[tid]? with
    | none => st
    | some .waiting =>
      if 0 < st.avail then ⟨st.avail - 1, st.tasks.set tid .holding⟩ else st
    | some .holding => ⟨st.avail, st.tasks.set tid .inCall⟩
    | some .inCall => ⟨st.avail + 1, st.tasks.set tid (.finished outcome)⟩
    | some (.finished _) => st

def ttsRun : TtsServerState → List TtsEvent → TtsServerState
  | st, [] => st
  | st, e :: evs => ttsRun (ttsStep st e) evs

/-- A task holds a permit between acquisition and release. -/
def holdsPermit : InferPhase → Bool
  | .holding => true
  | .inCall => true
  | _ => false

def isInCall : InferPhase → Bool
  | .inCall => true
  | _ => false

def heldCount (st : TtsServerState) : Nat := st.tasks.countP holdsPermit

def inCallCount (st : TtsServerState) : Nat := st.tasks.countP isInCall

theorem countP_set {α : Type} (p : α → Bool) (l : List α) (i : Nat) (a b : α)
    (h : l[i]? = some a) :
    (l.set i b).countP p + (if p a then 1 else 0) =
      l.countP p + (if p b then 1 else 0) := by
  induction l generalizing i with
  | nil => simp at h
  | cons x t ih =>
    cases i with
    | zero =>
      simp only [List.getElem?_cons_zero, Option.some.injEq] at h
      subst h
      simp only [List.set_cons_zero, List.countP_cons]
      cases hb : p b <;> cases hx : p x <;> simp [hb, hx]
    | succ i =>
      simp only [List.getElem?_cons_succ] at h
      simp only [List.set_cons_succ, List.countP_cons]
      have := ih i h
      cases hx : p x <;> simp [hx] <;> omega

theorem ttsStep_invariant (st : TtsServerState) (e : TtsEvent) (cap : Nat)
    (hinv : heldCount st + st.avail = cap) :
    heldCount (ttsStep st e) + (ttsStep st e).avail = cap := by
  obtain ⟨tid, outcome⟩ := e
  cases htask : st.tasks[tid]? with
  | none => simpa [ttsStep, htask] using hinv
  | some ph =>
    cases ph with
    | waiting =>
      by_cases havail : 0 < st.avail
      · have hcount := countP_set holdsPermit st.tasks tid .waiting .holding htask
        simp only [holdsPermit] at hcount
        simp only [heldCount] at hinv ⊢
        simp only [ttsStep, htask, havail, if_true, ite_true]
        simp at hcount
        omega
      · simpa [ttsStep, htask, havail] using hinv
    | holding =>
      have hcount := countP_set holdsPermit st.tasks tid .holding .inCall htask
      simp only [holdsPermit] at hcount
      simp only [heldCount] at hinv ⊢
      simp only [ttsStep, htask]
      simp at hcount
      omega
    | inCall =>
      have hcount := countP_set holdsPermit st.tasks tid .inCall (.finished outcome) htask
      simp only [holdsPermit] at hcount
      simp only [heldCount] at hinv ⊢
      simp only [ttsStep, htask]
      simp at hcount
      omega
    | finished b => simpa [ttsStep, htask] using hinv

theorem ttsRun_invariant (st : TtsServerState) (evs : List TtsEvent) (cap : Nat)
    (hinv : heldCount st + st.avail = cap) :
    heldCount (ttsRun st evs) + (ttsRun st evs).avail = cap := by
  induction evs generalizing st with
  | nil => exact hinv
  | cons e evs ih => exact ih (ttsStep st e) (ttsStep_invariant st e cap hinv)

theorem countP_mono_of_imp {α : Type} (p q : α → Bool) (l : List α)
    (h : ∀ a, p a = true → q a = true) : l.countP p ≤ l.countP q := by
  induction l with
  | nil => simp
  | cons x t ih =>
    simp only [List.countP_cons]
    cases hx : p x with
    | false => cases hq : q x <;> simp [hx, hq] <;> omega
    | true => simp [hx, h x hx]; omega

theorem two_le_countP_of_getElem? {α : Type} (p : α → Bool) (l : List α) (i j : Nat)
    (a b : α) (hi : l[i]? = some a) (hj : l[j]? = some b)
    (hpa : p a = true) (hpb : p b = true) (hij : i < j) : 2 ≤ l.countP p := by
  induction l generalizing i j with
  | nil => simp at hi
  | cons x t ih =>
    cases i with
    | zero =>
      simp only [List.getElem?_cons_zero, Option.some.injEq] at hi
      subst hi
      cases j with
      | zero => omega
      | succ j =>
        simp only [List.getElem?_cons_succ] at hj
        have hmem : b ∈ t := List.getElem?_mem hj
        have hpos : 0 < t.countP p := List.countP_pos_iff.mpr ⟨b, hmem, hpb⟩
        rw [List.countP_cons]
        simp only [hpa, if_true, ite_true]
        omega
    | succ i =>
      cases j with
      | zero => omega
      | succ j =>
        simp only [List.getElem?_cons_succ] at hi hj
        have := ih i j hi hj (by omega)
        simp only [List.countP_cons]
        omega

/-- C2. The admission pool has fixed capacity `max 1 n` where `n` is the
configured `TTS_MAX_CONCURRENCY` (default 1): in every schedule of every
number of synthesis requests, at most `max 1 n` requests are inside the
external inference call at any time; with the default configuration the
capacity is 1, so two distinct requests are never simultaneously in-call
(their in-call intervals cannot overlap); a permit is released in the same
step in which the call returns, on success and on failure alike; and a
request cannot acquire a permit while none is available. -/
theorem C2_admission_control (env : Option Nat) (ntasks : Nat)
    (evs : List TtsEvent) :
    inCallCount (ttsRun (ttsInit (tts_max_concurrency env) ntasks) evs) ≤
        tts_max_concurrency env ∧
      tts_max_concurrency none = 1 ∧
      (env = none →
        ∀ i j : Nat, ∀ a b : InferPhase, i ≠ j →
          (ttsRun (ttsInit (tts_max_concurrency env) ntasks) evs).tasks[i]? = some a →
          (ttsRun (ttsInit (tts_max_concurrency env) ntasks) evs).tasks[j]? = some b →
          ¬(isInCall a = true ∧ isInCall b = true)) ∧
      (∀ st : TtsServerState, ∀ tid outcome, st.tasks[tid]? = some .inCall →
        (ttsStep st (.advance tid outcome)).avail = st.avail + 1) ∧
      (∀ st : TtsServerState, ∀ tid outcome, st.tasks[tid]? = some .waiting →
        st.avail = 0 → ttsStep st (.advance tid outcome) = st) := by
  have hinit : heldCount (ttsInit (tts_max_concurrency env) ntasks) +
      (ttsInit (tts_max_concurrency env) ntasks).avail = tts_max_concurrency env := by
    have hzero : List.countP holdsPermit (List.replicate ntasks .waiting) = 0 := by
      apply List.countP_eq_zero.mpr
      intro a ha
      rw [List.eq_of_mem_replicate ha]
      decide
    simp [heldCount, ttsInit, hzero]
  have hrun := ttsRun_invariant (ttsInit (tts_max_concurrency env) ntasks) evs
    (tts_max_concurrency env) hinit
  have hbound : inCallCount (ttsRun (ttsInit (tts_max_concurrency env) ntasks) evs) ≤
      tts_max_concurrency env := by
    have hmono := countP_mono_of_imp isInCall holdsPermit
      (ttsRun (ttsInit (tts_max_concurrency env) ntasks) evs).tasks
      (by intro a ha; cases a <;> simp_all [isInCall, holdsPermit])
    unfold inCallCount
    unfold heldCount at hrun
    omega
  refine ⟨hbound, by rfl, ?_, ?_, ?_⟩
  · intro henv i j a b hij hi hj ⟨hpa, hpb⟩
    subst henv
    have hone : inCallCount (ttsRun (ttsInit (tts_max_concurrency none) ntasks) evs) ≤ 1 :=
      hbound
    rcases Nat.lt_or_ge i j with hlt | hge
    · have := two_le_countP_of_getElem? isInCall _ i j a b hi hj hpa hpb hlt
      unfold inCallCount at hone
      omega
    · have hlt : j < i := by omega
      have := two_le_countP_of_getElem? isInCall _ j i b a hj hi hpb hpa hlt
      unfold inCallCount at hone
      omega
  · intro st tid outcome htask
    simp [ttsStep, htask]
  · intro st tid outcome htask havail
    simp [ttsStep, htask, havail]

/-- Witness for C2 at a concrete schedule: two requests under the default
capacity-1 pool, the scheduler trying to advance the second request into
the call while the first holds the permit — the second stays waiting, and
after the first call fails its permit is released. -/
theorem C2_admission_control_witness :
    inCallCount (ttsRun (ttsInit (tts_max_concurrency none) 2)
        [.advance 0 true, .advance 0 true, .advance 1 true]) ≤ 1 ∧
      (ttsStep ⟨0, [.inCall, .waiting]⟩ (.advance 0 false)).avail = 0 + 1 ∧
      ttsStep ⟨0, [.inCall, .waiting]⟩ (.advance 1 true) = ⟨0, [.inCall, .waiting]⟩ := by
  refine ⟨(C2_admission_control none 2
      [.advance 0 true, .advance 0 true, .advance 1 true]).1, ?_, ?_⟩
  · exact (C2_admission_control none 2 []).2.2.2.1 ⟨0, [.inCall, .waiting]⟩ 0 false (by rfl)
  · exact (C2_admission_control none 2 []).2.2.2.2 ⟨0, [.inCall, .waiting]⟩ 1 true
      (by rfl) (by rfl)

/-! ## The voice-activity Segmenter

Modelled from the spec: the repository's recognition leg delegates
endpointing to the external streaming recognizer, and no local
voice-activity segmenter exists under the source tree — only the capture
loop that feeds it.  The spec §4.1 nevertheless specifies the Segmenter
state machine precisely, so it is modelled here from the spec's words:
`IDLE` → on first speech frame → `ACCUMULATING` (buffer frames, reset the
silence counter on every speech frame) → after K consecutive non-speech
frames → emit the Utterance if the accumulated speech duration reaches the
minimum, else discard → back to `IDLE`.  Frames are represented by their
classification (speech / non-speech); durations are counted in frames
(`K = silence_threshold_ms / frame_duration_ms`, `m` = minimum duration in
frames); an emitted Utterance is represented by its accumulated speech
duration. -/

inductive SegMode
  | idle
  | acc (speech : Nat) (silence : Nat)
deriving DecidableEq

/-- Modelled from the spec (§4.1): one frame of the Segmenter state
machine.  In `acc s q`, `s` is the accumulated speech duration and `q` the
current silence run; a speech frame accumulates and resets the silence
counter; the K-th consecutive non-speech frame closes the utterance,
emitting it if its duration reaches the minimum `m` and discarding it
otherwise. -/
def segStep (K m : Nat) : SegMode → Bool → SegMode × Option Nat
  | .idle, true => (.acc 1 0, none)
  | .idle, false => (.idle, none)
  | .acc s _, true => (.acc (s + 1) 0, none)
  | .acc s q, false =>
    if K ≤ q + 1 then (.idle, if m ≤ s then some s else none)
    else (.acc s (q + 1), none)

def segRun (K m : Nat) : SegMode → List Bool → SegMode × List Nat
  | st, [] => (st, [])
  | st, f :: fs =>
    ((segRun K m (segStep K m st f).1 fs).1,
      (segStep K m st f).2.toList ++ (segRun K m (segStep K m st f).1 fs).2)

/-- The Utterances emitted on a frame sequence, started from `IDLE`. -/
def segEmissions (K m : Nat) (fs : List Bool) : List Nat :=
  (segRun K m .idle fs).2

/-- Total speech duration of a frame sequence, in frames. -/
def speechFrames (fs : List Bool) : Nat := fs.count true

/-- `silenceRunsShort K q fs`: processing `fs` with the silence counter
currently at `q`, the counter never reaches `K`. -/
def silenceRunsShort (K : Nat) : Nat → List Bool → Bool
  | _, [] => true
  | _, true :: fs => silenceRunsShort K 0 fs
  | q, false :: fs => decide (q + 1 < K) && silenceRunsShort K (q + 1) fs

/-- The value of the silence counter after processing `fs` from `q`. -/
def trailingSilence : Nat → List Bool → Nat
  | q, [] => q
  | _, true :: fs => trailingSilence 0 fs
  | q, false :: fs => trailingSilence (q + 1) fs

/-- The C6 claim as stated: an Utterance is emitted iff a contiguous speech
run of duration at least the minimum is followed by at least K consecutive
non-speech frames. -/
def contiguous_run_emission_claim (K m : Nat) (fs : List Bool) : Prop :=
  segEmissions K m fs ≠ [] ↔
    ∃ pre rest : List Bool, ∃ L : Nat, m ≤ L ∧
      fs = pre ++ List.replicate L true ++ List.replicate K false ++ rest

/-- C6 counterexample frames (K = 2, minimum = 3): speech, speech, a single
sub-threshold silence frame, speech, then 2 silence frames. -/
def gapFrames : List Bool := [true, true, false, true, false, false]

/-- C6 counterexample. With K = 2 and a 3-frame minimum, the state machine
of the spec accumulates across the sub-threshold silence gap and emits one
Utterance of speech duration 3, yet the frames contain no contiguous speech
run of length ≥ 3 followed by 2 non-speech frames — the "iff" of the claim
fails in the machine-emits-but-no-contiguous-run direction. -/
theorem C6_counterexample :
    segEmissions 2 3 gapFrames = [3] ∧ ¬contiguous_run_emission_claim 2 3 gapFrames := by
  refine ⟨by rfl, ?_⟩
  intro h
  have hne : segEmissions 2 3 gapFrames ≠ [] := by
    rw [show segEmissions 2 3 gapFrames = [3] from rfl]
    simp
  obtain ⟨pre, rest, L, hL, hdecomp⟩ := h.mp hne
  have hrep : List.replicate L true =
      [true, true, true] ++ List.replicate (L - 3) true := by
    rw [show ([true, true, true] : List Bool) = List.replicate 3 true from rfl,
      List.append_replicate_replicate]
    congr 1
    omega
  have hinfix : [true, true, true] <:+: gapFrames :=
    ⟨pre, List.replicate (L - 3) true ++ List.replicate 2 false ++ rest, by
      rw [hdecomp, hrep]; simp⟩
  exact absurd hinfix (by decide)

/-- The amended claim: an Utterance is emitted iff some speech episode — a
stretch of frames starting with speech in which no silence run reaches K,
with total speech duration at least the minimum — is followed by K
consecutive non-speech frames. -/
def episode_emission (K m : Nat) (fs : List Bool) : Prop :=
  ∃ pre mid rest : List Bool,
    fs = pre ++ mid ++ List.replicate K false ++ rest ∧
      mid.head? = some true ∧ silenceRunsShort K 0 mid = true ∧
      m ≤ speechFrames mid

theorem segRun_append (K m : Nat) (st : SegMode) (a b : List Bool) :
    segRun K m st (a ++ b) =
      ((segRun K m (segRun K m st a).1 b).1,
        (segRun K m st a).2 ++ (segRun K m (segRun K m st a).1 b).2) := by
  induction a generalizing st with
  | nil => simp [segRun]
  | cons f a ih => simp [segRun, ih]

theorem segStep_emission_ge (K m : Nat) (st : SegMode) (f : Bool) (u : Nat)
    (h : (segStep K m st f).2 = some u) : m ≤ u := by
  cases st with
  | idle => cases f <;> simp [segStep] at h
  | acc s q =>
    cases f with
    | true => simp [segStep] at h
    | false =>
      by_cases hK : K ≤ q + 1
      · by_cases hm : m ≤ s
        · simp only [segStep, hK, if_pos, hm, Option.some.injEq, if_true, ite_true] at h
          omega
        · simp [segStep, hK, hm] at h
      · simp [segStep, hK] at h

theorem segRun_emissions_ge (K m : Nat) (st : SegMode) (fs : List Bool) :
    ∀ u ∈ (segRun K m st fs).2, m ≤ u := by
  induction fs generalizing st with
  | nil => simp [segRun]
  | cons f fs ih =>
    intro u hu
    simp only [segRun, List.mem_append] at hu
    rcases hu with hu | hu
    · cases hstep : (segStep K m st f).2 with
      | none => rw [hstep] at hu; simp at hu
      | some v =>
        rw [hstep] at hu
        simp only [Option.toList_some, List.mem_singleton] at hu
        subst hu
        exact segStep_emission_ge K m st f u hstep
    · exact ih (segStep K m st f).1 u hu

theorem segRun_acc_of_silenceRunsShort (K m : Nat) (mid : List Bool) (s q : Nat)
    (h : silenceRunsShort K q mid = true) :
    segRun K m (.acc s q) mid =
      (.acc (s + speechFrames mid) (trailingSilence q mid), []) := by
  induction mid generalizing s q with
  | nil => simp [segRun, speechFrames, trailingSilence]
  | cons f mid ih =>
    cases f with
    | true =>
      rw [silenceRunsShort] at h
      have hstep : segStep K m (.acc s q) true = (.acc (s + 1) 0, none) := rfl
      have htrail : trailingSilence q (true :: mid) = trailingSilence 0 mid := rfl
      have hcount : speechFrames (true :: mid) = speechFrames mid + 1 := by
        simp [speechFrames, List.count_cons]
      simp only [segRun, hstep, Option.toList_none, List.nil_append]
      rw [ih (s + 1) 0 h, htrail, hcount,
        show s + (speechFrames mid + 1) = s + 1 + speechFrames mid from by omega]
    | false =>
      rw [silenceRunsShort, Bool.and_eq_true, decide_eq_true_eq] at h
      obtain ⟨hq, h⟩ := h
      have hstep : segStep K m (.acc s q) false = (.acc s (q + 1), none) := by
        simp only [segStep, if_neg (by omega : ¬K ≤ q + 1)]
      have htrail : trailingSilence q (false :: mid) = trailingSilence (q + 1) mid := rfl
      have hcount : speechFrames (false :: mid) = speechFrames mid := by
        simp [speechFrames, List.count_cons]
      simp only [segRun, hstep, Option.toList_none, List.nil_append]
      rw [ih s (q + 1) h, htrail, hcount]

theorem trailingSilence_lt (K : Nat) (mid : List Bool) (q : Nat) (hK : 1 ≤ K)
    (h : silenceRunsShort K q mid = true) (hq : q < K) :
    trailingSilence q mid < K := by
  induction mid generalizing q with
  | nil => simpa [trailingSilence] using hq
  | cons f mid ih =>
    cases f with
    | true =>
      rw [silenceRunsShort] at h
      rw [trailingSilence]
      exact ih 0 h (by omega)
    | false =>
      rw [silenceRunsShort, Bool.and_eq_true, decide_eq_true_eq] at h
      obtain ⟨hq1, h⟩ := h
      rw [trailingSilence]
      exact ih (q + 1) h hq1

theorem segRun_idle_replicate_false (K m j : Nat) :
    segRun K m .idle (List.replicate j false) = (.idle, []) := by
  induction j with
  | zero => rfl
  | succ j ih =>
    rw [List.replicate_succ]
    simp [segRun, segStep, ih]

theorem segRun_acc_replicate_false (K m : Nat) (j q s : Nat)
    (hKq : K ≤ q + j) (hq : q < K) :
    segRun K m (.acc s q) (List.replicate j false) =
      (.idle, if m ≤ s then [s] else []) := by
  induction j generalizing q with
  | zero => omega
  | succ j ih =>
    rw [List.replicate_succ]
    by_cases hend : K ≤ q + 1
    · have hstep : segStep K m (.acc s q) false =
          (.idle, if m ≤ s then some s else none) := by
        simp [segStep, hend]
      simp only [segRun, hstep, segRun_idle_replicate_false, List.append_nil]
      by_cases hm : m ≤ s <;> simp [hm]
    · have hstep : segStep K m (.acc s q) false = (.acc s (q + 1), none) := by
        simp [segStep, hend]
      simp only [segRun, hstep, Option.toList_none, List.nil_append]
      rw [ih (q + 1) (by omega) (by omega)]

theorem segStep_true_acc (K m : Nat) (st : SegMode) :
    ∃ s₁ : Nat, 1 ≤ s₁ ∧ segStep K m st true = (.acc s₁ 0, none) := by
  cases st with
  | idle => exact ⟨1, le_rfl, rfl⟩
  | acc s q => exact ⟨s + 1, by omega, rfl⟩

/-- The ⇐ direction of the amended claim: a qualifying speech episode
followed by K non-speech frames forces at least one emission, whatever
surrounds it. -/
theorem episode_emission_implies_emits (K m : Nat) (hK : 1 ≤ K)
    (fs : List Bool) (h : episode_emission K m fs) :
    segEmissions K m fs ≠ [] := by
  obtain ⟨pre, mid, rest, hdecomp, hhead, hshort, hcount⟩ := h
  obtain ⟨midT, rfl⟩ : ∃ midT, mid = true :: midT := by
    cases mid with
    | nil => simp at hhead
    | cons f midT =>
      cases f with
      | true => exact ⟨midT, rfl⟩
      | false => simp at hhead
  rw [silenceRunsShort] at hshort
  obtain ⟨s₁, hs₁, hstep⟩ := segStep_true_acc K m (segRun K m .idle pre).1
  have hmidrun := segRun_acc_of_silenceRunsShort K m midT s₁ 0 hshort
  have hc : trailingSilence 0 midT < K :=
    trailingSilence_lt K midT 0 hK hshort (by omega)
  have hS : m ≤ s₁ + speechFrames midT := by
    have : speechFrames (true :: midT) = speechFrames midT + 1 := by
      simp [speechFrames, List.count_cons]
    omega
  have hfK := segRun_acc_replicate_false K m K (trailingSilence 0 midT)
    (s₁ + speechFrames midT) (by omega) hc
  rw [if_pos hS] at hfK
  have hdecomp' : fs = pre ++ ((true :: midT) ++ (List.replicate K false ++ rest)) := by
    rw [hdecomp]; simp [List.append_assoc]
  rw [segEmissions, hdecomp', segRun_append, segRun_append]
  simp only [segRun, hstep, Option.toList_none, List.nil_append]
  rw [hmidrun]
  simp only [segRun_append]
  rw [hfK]
  simp

theorem episode_emission_extend (K m : Nat) (f : Bool) (t : List Bool)
    (h : episode_emission K m t) : episode_emission K m (f :: t) := by
  obtain ⟨pre, mid, rest, hd, hh, hs, hc⟩ := h
  exact ⟨f :: pre, mid, rest, by rw [hd]; simp, hh, hs, hc⟩

/-- The ⇒ direction, strengthened over the machine state: if a run emits,
then either the episode currently accumulating completes (with or without a
full K-block inside the remaining frames), or a later full episode occurs.
Proved by strong induction on the frame-list length. -/
theorem segRun_emits_rev (K m : Nat) (hK : 1 ≤ K) :
    ∀ n : Nat, ∀ fs : List Bool, fs.length ≤ n →
      ((segRun K m .idle fs).2 ≠ [] → episode_emission K m fs) ∧
      (∀ s q : Nat, q < K → (segRun K m (.acc s q) fs).2 ≠ [] →
        (∃ rest : List Bool, fs = List.replicate (K - q) false ++ rest ∧ m ≤ s) ∨
        (∃ mid rest : List Bool, fs = mid ++ List.replicate K false ++ rest ∧
          silenceRunsShort K q mid = true ∧ m ≤ s + speechFrames mid) ∨
        episode_emission K m fs) := by
  intro n
  induction n with
  | zero =>
    intro fs hlen
    have hfs : fs = [] := List.length_eq_zero.mp (Nat.le_zero.mp hlen)
    subst hfs
    exact ⟨by intro h; simp [segRun] at h, by intro s q hq h; simp [segRun] at h⟩
  | succ n ih =>
    intro fs hlen
    cases fs with
    | nil =>
      exact ⟨by intro h; simp [segRun] at h, by intro s q hq h; simp [segRun] at h⟩
    | cons f t =>
      have hlen' : t.length ≤ n := by
        simp only [List.length_cons] at hlen
        omega
      obtain ⟨ihA, ihB⟩ := ih t hlen'
      constructor
      · intro hne
        cases f with
        | false =>
          have hne' : (segRun K m .idle t).2 ≠ [] := by
            simpa [segRun, segStep] using hne
          exact episode_emission_extend K m false t (ihA hne')
        | true =>
          have hne' : (segRun K m (.acc 1 0) t).2 ≠ [] := by
            simpa [segRun, segStep] using hne
          rcases ihB 1 0 (by omega) hne' with ⟨rest, hrest, hm⟩ |
            ⟨mid, rest, hd, hs, hm⟩ | hep
          · refine ⟨[], [true], rest, ?_, rfl, rfl, ?_⟩
            · rw [hrest]; simp
            · simpa [speechFrames] using hm
          · refine ⟨[], true :: mid, rest, ?_, rfl, hs, ?_⟩
            · rw [hd]; simp
            · have : speechFrames (true :: mid) = speechFrames mid + 1 := by
                simp [speechFrames, List.count_cons]
              omega
          · exact episode_emission_extend K m true t hep
      · intro s q hq hne
        cases f with
        | true =>
          have hne' : (segRun K m (.acc (s + 1) 0) t).2 ≠ [] := by
            simpa [segRun, segStep] using hne
          rcases ihB (s + 1) 0 (by omega) hne' with ⟨rest, hrest, hm⟩ |
            ⟨mid, rest, hd, hs, hm⟩ | hep
          · right; left
            refine ⟨[true], rest, ?_, rfl, ?_⟩
            · rw [hrest]; simp
            · simp only [speechFrames, List.count_cons, List.count_nil]
              simp
              omega
          · right; left
            refine ⟨true :: mid, rest, ?_, hs, ?_⟩
            · rw [hd]; simp
            · have : speechFrames (true :: mid) = speechFrames mid + 1 := by
                simp [speechFrames, List.count_cons]
              omega
          · right; right
            exact episode_emission_extend K m true t hep
        | false =>
          by_cases hend : K ≤ q + 1
          · have hstep : segStep K m (.acc s q) false =
                (.idle, if m ≤ s then some s else none) := by
              simp [segStep, hend]
            by_cases hm : m ≤ s
            · left
              refine ⟨t, ?_, hm⟩
              rw [show K - q = 1 from by omega]
              rfl
            · have hne' : (segRun K m .idle t).2 ≠ [] := by
                simpa [segRun, hstep, hm] using hne
              right; right
              exact episode_emission_extend K m false t (ihA hne')
          · have hstep : segStep K m (.acc s q) false = (.acc s (q + 1), none) := by
              simp [segStep, hend]
            have hne' : (segRun K m (.acc s (q + 1)) t).2 ≠ [] := by
              simpa [segRun, hstep] using hne
            rcases ihB s (q + 1) (by omega) hne' with ⟨rest, hrest, hm⟩ |
              ⟨mid, rest, hd, hs, hm⟩ | hep
            · left
              refine ⟨rest, ?_, hm⟩
              rw [hrest, show K - q = (K - (q + 1)) + 1 from by omega,
                List.replicate_succ]
              rfl
            · right; left
              refine ⟨false :: mid, rest, ?_, ?_, ?_⟩
              · rw [hd]; rfl
              · rw [silenceRunsShort, Bool.and_eq_true, decide_eq_true_eq]
                exact ⟨by omega, hs⟩
              · have : speechFrames (false :: mid) = speechFrames mid := by
                  simp [speechFrames, List.count_cons]
                omega
            · right; right
              exact episode_emission_extend K m false t hep

/-- C6 amended.  For the Segmenter state machine of the spec (which
accumulates a speech episode across silence gaps shorter than K): for all
frame sequences, an Utterance is emitted iff a speech episode — beginning
with a speech frame, containing no silence run of length K, and totalling
at least the minimum speech duration — is followed by K consecutive
non-speech frames; and every emitted Utterance has speech duration at
least the minimum (shorter episodes are discarded, never emitted). -/
theorem C6_amended_segmenter (K m : Nat) (fs : List Bool) (hK : 1 ≤ K) :
    (segEmissions K m fs ≠ [] ↔ episode_emission K m fs) ∧
      ∀ u ∈ segEmissions K m fs, m ≤ u := by
  refine ⟨⟨?_, episode_emission_implies_emits K m hK fs⟩,
    segRun_emissions_ge K m .idle fs⟩
  intro hne
  exact ((segRun_emits_rev K m hK fs.length fs le_rfl).1) hne

/-- Witness for the amended C6 theorem at K = 2, minimum 3 frames, on a
3-frame speech run followed by 2 silence frames. -/
theorem C6_amended_segmenter_witness :
    (segEmissions 2 3 [true, true, true, false, false] ≠ [] ↔
        episode_emission 2 3 [true, true, true, false, false]) ∧
      ∀ u ∈ segEmissions 2 3 [true, true, true, false, false], 3 ≤ u :=
  C6_amended_segmenter 2 3 [true, true, true, false, false] (by omega)

/-- Witness for C10 at a concrete buffer. -/
theorem C10_split_sentences_spec_witness :
    (∀ s ∈ (split_sentences ("a。b".toList)).1,
        s ≠ [] ∧ ∃ d, s.getLast? = some d ∧ sentenceTerminal d = true) ∧
      (∃ ps : List (List Char), ps.length = (pyFinditer ("a。b".toList)).1.length ∧
        "a。b".toList = joinParts (ps.zip (pyFinditer ("a。b".toList)).1)
          (split_sentences ("a。b".toList)).2) ∧
      ((pyFinditer ("a。b".toList)).1 = [] →
        (split_sentences ("a。b".toList)).2 = "a。b".toList) ∧
      (split_sentences ("a。b".toList)).1 =
        (pyFinditer ("a。b".toList)).1.map pyStrip :=
  C10_split_sentences_spec ("a。b".toList)

/-- Witness for C5 with three listeners, the middle one broken. -/
theorem C5_broadcast_tolerates_failures_witness :
    (broadcast_text [⟨1, true⟩, ⟨2, false⟩, ⟨3, true⟩]).1 =
        (([⟨1, true⟩, ⟨2, false⟩, ⟨3, true⟩] : List Listener).filter
          (fun ws => ws.sendOk)).map (fun ws => ws.id) ∧
      (broadcast_text [⟨1, true⟩, ⟨2, false⟩, ⟨3, true⟩]).2 =
        ([⟨1, true⟩, ⟨2, false⟩, ⟨3, true⟩] : List Listener).filter
          (fun ws => ws.sendOk) :=
  C5_broadcast_tolerates_failures [⟨1, true⟩, ⟨2, false⟩, ⟨3, true⟩]

/-- Witness for C4 on a failing generation call with a healthy channel. -/
theorem C4_resume_after_failure_witness :
    (run_turn (.error "generation failed") true true).attempted =
        [.pauseListening, .resumeListening] ∧
      (run_turn (.error "generation failed") true true).sent =
        ((if true then [GateCmd.pauseListening] else []) ++
          (if true then [GateCmd.resumeListening] else [])) ∧
      (run_turn (.error "generation failed") true true).continues = true :=
  C4_resume_after_failure (.error "generation failed") true true

/-- Witness for the amended C7 theorem at a concrete chunk stream. -/
theorem C7_amended_batch_only_witness :
    stream_to_tts ["a。", "", "b"] = batch_mode_submissions ["a。", "", "b"] :=
  C7_amended_batch_only ["a。", "", "b"]

/-- Witness for the amended C8 theorem: two registered clients, client 1
pauses; the notification goes to client 1 only. -/
theorem C8_amended_notify_issuer_only_witness :
    (serverStep ⟨true, [1, 2], 0, [], []⟩ (.command 1 .pauseListening)).sends =
        (⟨true, [1, 2], 0, [], []⟩ : ServerState).sends ∨
      ∃ msg, (serverStep ⟨true, [1, 2], 0, [], []⟩ (.command 1 .pauseListening)).sends =
        (⟨true, [1, 2], 0, [], []⟩ : ServerState).sends ++ [(1, msg)] :=
  C8_amended_notify_issuer_only ⟨true, [1, 2], 0, [], []⟩ 1 .pauseListening

/-- Witness for the amended C9 theorem at a concrete session pair. -/
theorem C9_amended_error_ends_session_witness :
    audio_generator ([.read (.okChunk 1)] ++ .read .readError :: [.read (.okChunk 2)]) =
        audio_generator ([.read (.okChunk 1)] ++ [.read .readError]) ∧
      transcription_worker [[.read (.okChunk 1)], [.read (.okChunk 2)]] =
        ([[.read (.okChunk 1)], [.read (.okChunk 2)]].map audio_generator).flatten :=
  C9_amended_error_ends_session [.read (.okChunk 1)] [.read (.okChunk 2)]
    [[.read (.okChunk 1)], [.read (.okChunk 2)]]

end ClonePro
